import Mathlib

/-!
A shallow embedding of the `ndarray-layout` crate: the `ArrayLayout` record
(`src/lib.rs`) and its transforms (`src/transform/*.rs`), together with proofs
about construction, indexing, slicing, splitting, tiling, merging,
broadcasting and extent analysis.
-/

namespace NdLayout

/-- Outcome of a Rust function that may abort: `panics` models a failed
`assert!`, out-of-bounds indexing, division by zero or debug-mode arithmetic
overflow; `returns a` models a normal return of `a`. -/
inductive RustOutcome (α : Type) where
  | panics : RustOutcome α
  | returns : α → RustOutcome α
deriving DecidableEq, Repr

/-- Sequencing of possibly-panicking computations. -/
def RustOutcome.bind {α β : Type} : RustOutcome α → (α → RustOutcome β) → RustOutcome β
  | .panics, _ => .panics
  | .returns a, f => f a

/-- Mapping over the result of a possibly-panicking computation. -/
def RustOutcome.map {α β : Type} (f : α → β) : RustOutcome α → RustOutcome β
  | .panics => .panics
  | .returns a => .returns (f a)

/-- The logical content of `ArrayLayout` (src/lib.rs): base offset, per-axis
extents (`shape`) and per-axis strides.  The inline-versus-heap storage split
of the Rust record is not observable through the public API — equality
compares the logical slot sequence — so the embedding keeps only the logical
data. -/
structure Layout where
  offset : Int
  shape : List Nat
  strides : List Int
deriving DecidableEq, Repr

/-- `ArrayLayout::ndim`: the rank. -/
def Layout.ndim (l : Layout) : Nat := l.shape.length

/-- The data-model invariant `len(shape) == len(strides)`. -/
def Layout.wf (l : Layout) : Prop := l.shape.length = l.strides.length

instance (l : Layout) : Decidable l.wf := by unfold Layout.wf; infer_instance

/-- The per-axis (extent, stride) pairs, in axis order. -/
def Layout.axes (l : Layout) : List (Nat × Int) := l.shape.zip l.strides

/-- Rebuild a layout from an offset and a list of (extent, stride) pairs. -/
def Layout.ofAxes (offset : Int) (axes : List (Nat × Int)) : Layout :=
  ⟨offset, axes.map Prod.fst, axes.map Prod.snd⟩

/-- `ArrayLayout::new` (src/lib.rs): asserts `shape.len() == strides.len()`
and copies the three fields into fresh storage; no other validation occurs. -/
def new (shape : List Nat) (strides : List Int) (offset : Int) : RustOutcome Layout :=
  if shape.length = strides.length then .returns ⟨offset, shape, strides⟩ else .panics

/-- One step of the `data_range` loop (src/lib.rs): with `i = d as isize - 1`,
a negative stride lowers the running start, a positive stride raises the
running end, a zero stride does nothing. -/
def dataRangeStep (acc : Int × Int) (p : Nat × Int) : Int × Int :=
  let i : Int := (p.1 : Int) - 1
  if p.2 < 0 then (acc.1 + p.2 * i, acc.2)
  else if 0 < p.2 then (acc.1, acc.2 + p.2 * i)
  else acc

/-- `ArrayLayout::data_range` (src/lib.rs): both bounds start at `offset` and
each axis moves one of them by `stride * (extent - 1)`. -/
def Layout.data_range (l : Layout) : Int × Int :=
  l.axes.foldl dataRangeStep (l.offset, l.offset)

/-! Index transform (src/transform/index.rs). An argument is the pair
(axis, coordinate). -/

/-- The `check` closure of `index_many`: the axis exists in the *original*
shape and the coordinate is below its extent. -/
def indexArgOk (shape : List Nat) (arg : Nat × Nat) : Bool :=
  decide (arg.1 < shape.length) && decide (arg.2 < shape.getD arg.1 0)

/-- The axis loop of `index_many`: the counter `i` walks the axes; a head
argument whose axis equals `i` is consumed (its displacement accumulated, the
axis dropped, and the next argument checked for validity and strictly
ascending axis); any other axis is kept.  An argument surviving the loop
would leave the shrunken result record with unwritten slots, modelled as a
panic. -/
def indexGo (shape0 : List Nat) :
    List (Nat × Nat) → Nat → List (Nat × Int) → RustOutcome (Int × List (Nat × Int))
  | args, _, [] => if args.isEmpty then .returns (0, []) else .panics
  | [], i, ds :: axes => (indexGo shape0 [] (i + 1) axes).map fun r => (r.1, ds :: r.2)
  | (a, idx) :: tail, i, (d, s) :: axes =>
    if a = i then
      let chk : Bool :=
        match tail with
        | [] => true
        | next :: _ => indexArgOk shape0 next && decide (a < next.1)
      if chk then
        (indexGo shape0 tail (i + 1) axes).map fun r => ((idx : Int) * s + r.1, r.2)
      else .panics
    else
      (indexGo shape0 ((a, idx) :: tail) (i + 1) axes).map fun r => (r.1, (d, s) :: r.2)

/-- `index_many` (src/transform/index.rs): an empty argument list returns a
clone; otherwise the first argument is checked eagerly and the axis loop
runs, the result collecting the kept axes and the accumulated offset. -/
def index_many (l : Layout) (args : List (Nat × Nat)) : RustOutcome Layout :=
  match args with
  | [] => .returns l
  | first :: _ =>
    if indexArgOk l.shape first then
      (indexGo l.shape args 0 l.axes).map fun r => Layout.ofAxes (l.offset + r.1) r.2
    else .panics

/-- `index` = `index_many` with a single argument. -/
def index (l : Layout) (axis idx : Nat) : RustOutcome Layout :=
  index_many l [(axis, idx)]

/-! Slice transform (src/transform/slice.rs). -/

/-- `SliceArg`: axis, start, signed step, requested length. -/
structure SliceArg where
  axis : Nat
  start : Nat
  step : Int
  len : Nat
deriving DecidableEq, Repr

/-- Rust `usize::div_ceil` (for a positive divisor). -/
def divCeil (a b : Nat) : Nat := (a + b - 1) / b

/-- The per-axis body of `slice_many`, following `step.cmp(&0)`: for a
positive or zero step the code asserts `start < d`; for a negative step it
clamps `start` to `d - 1` (where `d - 1` underflows, hence panics, when
`d == 0`).  Returns the offset displacement, the new extent and the new
stride. -/
def sliceAxis (d : Nat) (s : Int) (arg : SliceArg) : RustOutcome (Int × Nat × Int) :=
  if 0 < arg.step then
    if arg.start < d then
      .returns ((arg.start : Int) * s,
        min (divCeil (d - arg.start) arg.step.toNat) arg.len, s * arg.step)
    else .panics
  else if arg.step = 0 then
    if arg.start < d then
      .returns ((arg.start : Int) * s, arg.len, s * arg.step)
    else .panics
  else
    if d = 0 then .panics
    else
      let st := min arg.start (d - 1)
      .returns ((st : Int) * s,
        min (divCeil (st + 1) (-arg.step).toNat) arg.len, s * arg.step)

/-- The axis loop of `slice_many`: a head argument whose axis equals the
counter rewrites that axis (and, when another argument follows, the code
asserts the axes strictly ascend and stay below the rank `n`); other axes are
kept unchanged; arguments whose axis is never reached are silently ignored,
exactly as in the source. -/
def sliceGo (n : Nat) :
    List SliceArg → Nat → List (Nat × Int) → RustOutcome (Int × List (Nat × Int))
  | _, _, [] => .returns (0, [])
  | [], i, ds :: axes => (sliceGo n [] (i + 1) axes).map fun r => (r.1, ds :: r.2)
  | arg :: tail, i, (d, s) :: axes =>
    if arg.axis = i then
      (sliceAxis d s arg).bind fun body =>
      let chk : Bool :=
        match tail with
        | [] => true
        | next :: _ => decide (arg.axis < next.axis) && decide (next.axis < n)
      if chk then
        (sliceGo n tail (i + 1) axes).map fun r =>
          (body.1 + r.1, (body.2.1, body.2.2) :: r.2)
      else .panics
    else
      (sliceGo n (arg :: tail) (i + 1) axes).map fun r => (r.1, (d, s) :: r.2)

/-- `slice_many` (src/transform/slice.rs). -/
def slice_many (l : Layout) (args : List SliceArg) : RustOutcome Layout :=
  (sliceGo l.ndim args 0 l.axes).map fun r => Layout.ofAxes (l.offset + r.1) r.2

/-- `slice` = `slice_many` with a single argument. -/
def slice (l : Layout) (axis start : Nat) (step : Int) (len : Nat) : RustOutcome Layout :=
  slice_many l [⟨axis, start, step, len⟩]

/-! Split transform (src/transform/split.rs). -/

/-- The `Split` iterator run to completion: each item slices the *source*
layout with step 1 at the accumulated start. -/
def splitGo (l : Layout) (axis : Nat) : Nat → List Nat → RustOutcome (List Layout)
  | _, [] => .returns []
  | start, head :: tail =>
    (slice l axis start 1 head).bind fun x =>
    (splitGo l axis (start + head) tail).map fun xs => x :: xs

/-- `split` (src/transform/split.rs): `assert_eq!(self.shape()[axis],
parts.iter().sum())` panics on an out-of-range axis or a size mismatch;
otherwise the iterator yields one slice per part. -/
def split (l : Layout) (axis : Nat) (parts : List Nat) : RustOutcome (List Layout) :=
  if axis < l.shape.length then
    if l.shape.getD axis 0 = parts.sum then splitGo l axis 0 parts else .panics
  else .panics

/-! Broadcast transform (src/transform/broadcast.rs). -/

/-- One step of `broadcast_many`: asserts the axis is in range with extent 1
or stride 0, then sets the extent to `times` and the stride to 0. -/
def broadcastStep (l : Layout) (axis times : Nat) : RustOutcome Layout :=
  if axis < l.shape.length ∧ axis < l.strides.length then
    if l.shape.getD axis 0 = 1 ∨ l.strides.getD axis 0 = 0 then
      .returns ⟨l.offset, l.shape.set axis times, l.strides.set axis 0⟩
    else .panics
  else .panics

/-- `broadcast_many` (src/transform/broadcast.rs): starts from a clone and
applies each argument in turn. -/
def broadcast_many (l : Layout) (args : List (Nat × Nat)) : RustOutcome Layout :=
  args.foldl (fun acc arg => acc.bind (broadcastStep · arg.1 arg.2)) (.returns l)

/-- `broadcast` = `broadcast_many` with a single argument. -/
def broadcast (l : Layout) (axis times : Nat) : RustOutcome Layout :=
  broadcast_many l [(axis, times)]

/-! Tile transform (src/transform/tile.rs). -/

/-- The two tile ordering policies. -/
inductive TileOrder where
  | bigEndian
  | littleEndian
deriving DecidableEq, Repr

/-- `TileArg`: axis, ordering policy, tile sizes. -/
structure TileArg where
  axis : Nat
  order : TileOrder
  tiles : List Nat
deriving DecidableEq, Repr

/-- The `check` closure of `tile_many`: the axis exists and its extent equals
the product of the tile sizes. -/
def tileArgOk (shape : List Nat) (arg : TileArg) : Bool :=
  decide (arg.axis < shape.length) && decide (shape.getD arg.axis 0 = arg.tiles.prod)

/-- Big-endian tile body: the running stride starts at `stride * extent` and
is divided by each tile size before being pushed.  Rust `isize` division
truncates toward zero and panics on a zero divisor. -/
def tileBE : Int → List Nat → RustOutcome (List (Nat × Int))
  | _, [] => .returns []
  | s, t :: ts =>
    if t = 0 then .panics
    else
      let s2 := Int.tdiv s t
      (tileBE s2 ts).map fun r => (t, s2) :: r

/-- Little-endian tile body: each tile size is pushed with the running
stride, which is then multiplied by it. -/
def tileLE : Int → List Nat → RustOutcome (List (Nat × Int))
  | _, [] => .returns []
  | s, t :: ts => (tileLE (s * t) ts).map fun r => (t, s) :: r

/-- The replacement axes for one tiled axis of extent `d` and stride `s`. -/
def tileAxis (d : Nat) (s : Int) (arg : TileArg) : RustOutcome (List (Nat × Int)) :=
  match arg.order with
  | .bigEndian => tileBE (s * d) arg.tiles
  | .littleEndian => tileLE s arg.tiles

/-- The upfront validation of the second and later `tile_many` arguments:
each is checked and must target a strictly larger axis than its predecessor. -/
def tileRestOk (shape : List Nat) : List TileArg → Nat → Bool
  | [], _ => true
  | arg :: tail, last =>
    tileArgOk shape arg && decide (last < arg.axis) && tileRestOk shape tail arg.axis

/-- The axis loop of `tile_many`: a head argument whose axis equals the
counter is replaced by its tiled axes; other axes are kept.  An argument
surviving the loop would leave unwritten slots in the result, modelled as a
panic (unreachable once the upfront checks pass). -/
def tileGo : List TileArg → Nat → List (Nat × Int) → RustOutcome (List (Nat × Int))
  | args, _, [] => if args.isEmpty then .returns [] else .panics
  | [], i, ds :: axes => (tileGo [] (i + 1) axes).map fun r => ds :: r
  | arg :: tail, i, (d, s) :: axes =>
    if arg.axis = i then
      (tileAxis d s arg).bind fun new =>
      (tileGo tail (i + 1) axes).map fun r => new ++ r
    else
      (tileGo (arg :: tail) (i + 1) axes).map fun r => (d, s) :: r

/-- `tile_many` (src/transform/tile.rs): an empty argument list returns a
clone; otherwise all arguments are checked upfront (validity and strictly
ascending axes) and the axis loop runs with the offset unchanged. -/
def tile_many (l : Layout) (args : List TileArg) : RustOutcome Layout :=
  match args with
  | [] => .returns l
  | first :: rest =>
    if tileArgOk l.shape first && tileRestOk l.shape rest first.axis then
      (tileGo args 0 l.axes).map fun r => Layout.ofAxes l.offset r
    else .panics

/-- `tile_be` = `tile_many` with a single big-endian argument. -/
def tile_be (l : Layout) (axis : Nat) (tiles : List Nat) : RustOutcome Layout :=
  tile_many l [⟨axis, .bigEndian, tiles⟩]

/-- `tile_le` = `tile_many` with a single little-endian argument. -/
def tile_le (l : Layout) (axis : Nat) (tiles : List Nat) : RustOutcome Layout :=
  tile_many l [⟨axis, .littleEndian, tiles⟩]

/-! Merge transform (src/transform/merge.rs). -/

/-- Insertion into a list sorted by stride magnitude.  The source uses
`sort_unstable_by_key(|(_, &s)| s.unsigned_abs())`; the unstable sort is
modelled by insertion sort, one of its admissible results. -/
def insertAbs (x : Nat × Int) : List (Nat × Int) → List (Nat × Int)
  | [] => [x]
  | y :: ys => if x.2.natAbs ≤ y.2.natAbs then x :: y :: ys else y :: insertAbs x ys

/-- Sort (extent, stride) pairs by stride magnitude. -/
def sortAbs : List (Nat × Int) → List (Nat × Int)
  | [] => []
  | x :: xs => insertAbs x (sortAbs xs)

/-- The adjacent-pair walk of `merge_many` over the sorted run: `s` is the
stride of the first (smallest-magnitude) pair and `d` the accumulated extent.
A pair `(lext, ls), (r, rs)` is accepted exactly when the source condition
`l == 1 || s == 1 || ls == rs * r || rs == ls * l` holds. -/
def mergeGo (s : Int) : Nat × Int → Nat → List (Nat × Int) → Option (Nat × Int)
  | _, d, [] => some (d, s)
  | (lext, ls), d, (r, rs) :: rest =>
    if lext = 1 ∨ s = 1 ∨ ls = rs * r ∨ rs = ls * lext then
      mergeGo s (r, rs) (d * r) rest
    else none

/-- Collapse one axis run into a single (extent, stride) pair, or report that
it is not mergeable. -/
def mergeRun (run : List (Nat × Int)) : Option (Nat × Int) :=
  match sortAbs run with
  | [] => none
  | (d, s) :: rest => mergeGo s (d, s) d rest

/-- `merge` = `merge_many` with the single range `st..en`
(src/transform/merge.rs): axes before and after the range are kept, the run
itself is sorted by stride magnitude and collapsed, and `None` is returned on
an unmergeable run.  An out-of-bounds range panics (slice indexing); an empty
range would leave an uninitialized slot in the result record, likewise
modelled as a panic. -/
def merge (l : Layout) (st en : Nat) : RustOutcome (Option Layout) :=
  if st < en ∧ en ≤ l.axes.length then
    match mergeRun ((l.axes.drop st).take (en - st)) with
    | none => .returns none
    | some p =>
      .returns (some (Layout.ofAxes l.offset (l.axes.take st ++ p :: l.axes.drop en)))
  else .panics

/-! Address sets, and definitions taken from the specification's wording for
comparison with the source. -/

/-- All linear displacements reachable through a list of (extent, stride)
axes. -/
def axesOffsets : List (Nat × Int) → List Int
  | [] => [0]
  | (d, s) :: rest =>
    (List.range d).flatMap fun i => (axesOffsets rest).map fun o => (i : Int) * s + o

/-- All linear positions a layout addresses. -/
def Layout.addresses (l : Layout) : List Int := (axesOffsets l.axes).map (l.offset + ·)

/-- Stated from the specification for comparison: the non-negative-minimum-
offset validation the spec ascribes to `new` — scanning the axes with
negative stride, accumulating the worst-case displacement `(extent-1)*stride`
onto the offset, and rejecting as soon as a partial accumulation goes below
zero. -/
def specMinOffsetGo : Int → List (Nat × Int) → Bool
  | _, [] => true
  | acc, (d, s) :: rest =>
    if s < 0 then
      let acc2 := acc + ((d : Int) - 1) * s
      if acc2 < 0 then false else specMinOffsetGo acc2 rest
    else specMinOffsetGo acc rest

/-- Stated from the specification for comparison: the whole-input form of the
non-negative-minimum-offset validation. -/
def specMinOffsetOk (shape : List Nat) (strides : List Int) (offset : Int) : Bool :=
  specMinOffsetGo offset (shape.zip strides)

/-- Stated from the specification for comparison: the spec's merge
compatibility condition on the magnitude-sorted run — every adjacent pair has
the larger-magnitude stride equal to the smaller-magnitude stride times the
smaller member's extent, with an extent of 1 on either side always
compatible. -/
def specCompatAdj : List (Nat × Int) → Bool
  | [] => true
  | [_] => true
  | (lext, ls) :: (r, rs) :: rest =>
    (decide (lext = 1) || decide (r = 1) || decide (rs = ls * lext)) &&
      specCompatAdj ((r, rs) :: rest)

/-! Repeated single-axis application, for the many-versus-single equivalence. -/

/-- Repeatedly apply the single-axis index in ascending-axis order: after an
axis is removed, every later axis position shifts down by one, so the
remaining arguments are renumbered accordingly before the next application. -/
def indexSingles : List (Nat × Nat) → Layout → RustOutcome Layout
  | [], l => .returns l
  | (a, idx) :: rest, l =>
    (index l a idx).bind fun l2 => indexSingles (rest.map fun p => (p.1 - 1, p.2)) l2
termination_by args => args.length
decreasing_by simp [List.length_map]

/-- Repeatedly apply the single-axis slice in ascending-axis order (slicing
preserves the rank, so no renumbering is needed). -/
def sliceSingles : List SliceArg → Layout → RustOutcome Layout
  | [], l => .returns l
  | arg :: rest, l =>
    (slice l arg.axis arg.start arg.step arg.len).bind fun l2 => sliceSingles rest l2

/-! Basic lemmas about the embedding. -/

theorem RustOutcome.map_map {α β γ : Type} (f : α → β) (g : β → γ) (x : RustOutcome α) :
    (x.map f).map g = x.map fun a => g (f a) := by
  cases x <;> rfl

theorem RustOutcome.map_bind {α β γ : Type} (f : α → β) (g : β → RustOutcome γ)
    (x : RustOutcome α) : (x.map f).bind g = x.bind fun a => g (f a) := by
  cases x <;> rfl

theorem RustOutcome.bind_returns {α : Type} (a : α) (g : α → RustOutcome β) :
    (RustOutcome.returns a).bind g = g a := rfl

theorem Layout.axes_ofAxes (o : Int) (A : List (Nat × Int)) : (Layout.ofAxes o A).axes = A := by
  induction A with
  | nil => rfl
  | cons p A ih =>
    simp only [Layout.ofAxes, Layout.axes, List.map_cons, List.zip_cons_cons] at *
    exact congrArg (p :: ·) ih

theorem Layout.ofAxes_wf (o : Int) (A : List (Nat × Int)) : (Layout.ofAxes o A).wf := by
  simp [Layout.ofAxes, Layout.wf]

theorem Layout.ofAxes_ndim (o : Int) (A : List (Nat × Int)) :
    (Layout.ofAxes o A).ndim = A.length := by
  simp [Layout.ofAxes, Layout.ndim]

theorem Layout.ofAxes_axes_self (l : Layout) (h : l.wf) :
    Layout.ofAxes l.offset l.axes = l := by
  obtain ⟨o, sh, st⟩ := l
  simp only [Layout.wf] at h
  simp [Layout.ofAxes, Layout.axes, List.map_fst_zip sh st (le_of_eq h),
    List.map_snd_zip sh st (ge_of_eq h)]

theorem Layout.axes_length (l : Layout) (h : l.wf) : l.axes.length = l.ndim := by
  obtain ⟨o, sh, st⟩ := l
  simp only [Layout.wf] at h
  simp [Layout.axes, Layout.ndim, List.length_zip, h]

theorem zip_getD (sh : List Nat) (st : List Int) (a : Nat)
    (h1 : a < sh.length) (h2 : a < st.length) :
    (sh.zip st).getD a (0, 0) = (sh.getD a 0, st.getD a 0) := by
  induction sh generalizing st a with
  | nil => simp at h1
  | cons d sh ih =>
    cases st with
    | nil => simp at h2
    | cons s st =>
      cases a with
      | zero => rfl
      | succ a =>
        simp only [List.zip_cons_cons, List.getD_cons_succ]
        exact ih st a (Nat.lt_of_succ_lt_succ h1) (Nat.lt_of_succ_lt_succ h2)

theorem map_eraseIdx {α β : Type} (f : α → β) (A : List α) (n : Nat) :
    (A.eraseIdx n).map f = (A.map f).eraseIdx n := by
  induction A generalizing n with
  | nil => rfl
  | cons x A ih =>
    cases n with
    | zero => rfl
    | succ n => simpa [List.eraseIdx_cons_succ] using congrArg (f x :: ·) (ih n)

/-! Extent analysis. -/

theorem dataRange_foldl (A : List (Nat × Int)) (a b : Int) :
    A.foldl dataRangeStep (a, b) =
      (a + ((A.filter fun p => decide (p.2 < 0)).map fun p => p.2 * ((p.1 : Int) - 1)).sum,
       b + ((A.filter fun p => decide (0 < p.2)).map fun p => p.2 * ((p.1 : Int) - 1)).sum) := by
  induction A generalizing a b with
  | nil => simp
  | cons p A ih =>
    rcases lt_trichotomy p.2 0 with h | h | h
    · have h2 : ¬(0 < p.2) := by omega
      have hstep : dataRangeStep (a, b) p = (a + p.2 * ((p.1 : Int) - 1), b) := by
        simp [dataRangeStep, h]
      have hf1 : (p :: A).filter (fun p => decide (p.2 < 0)) =
          p :: A.filter fun p => decide (p.2 < 0) := by simp [List.filter_cons, h]
      have hf2 : (p :: A).filter (fun p => decide (0 < p.2)) =
          A.filter fun p => decide (0 < p.2) := by simp [List.filter_cons, h2]
      rw [List.foldl_cons, hstep, ih, hf1, hf2, List.map_cons, List.sum_cons, Prod.mk.injEq]
      exact ⟨by ring, rfl⟩
    · have h1 : ¬(p.2 < 0) := by omega
      have h2 : ¬(0 < p.2) := by omega
      have hstep : dataRangeStep (a, b) p = (a, b) := by simp [dataRangeStep, h]
      have hf1 : (p :: A).filter (fun p => decide (p.2 < 0)) =
          A.filter fun p => decide (p.2 < 0) := by simp [List.filter_cons, h1]
      have hf2 : (p :: A).filter (fun p => decide (0 < p.2)) =
          A.filter fun p => decide (0 < p.2) := by simp [List.filter_cons, h2]
      rw [List.foldl_cons, hstep, ih, hf1, hf2]
    · have h1 : ¬(p.2 < 0) := by omega
      have hstep : dataRangeStep (a, b) p = (a, b + p.2 * ((p.1 : Int) - 1)) := by
        simp only [dataRangeStep, if_neg h1, if_pos h]
      have hf1 : (p :: A).filter (fun p => decide (p.2 < 0)) =
          A.filter fun p => decide (p.2 < 0) := by simp [List.filter_cons, h1]
      have hf2 : (p :: A).filter (fun p => decide (0 < p.2)) =
          p :: A.filter fun p => decide (0 < p.2) := by simp [List.filter_cons, h]
      rw [List.foldl_cons, hstep, ih, hf1, hf2, List.map_cons, List.sum_cons, Prod.mk.injEq]
      exact ⟨rfl, by ring⟩

/-- C6.  `data_range` returns the inclusive range whose lower bound is the
offset plus the sum, over the axes with negative stride, of
`stride * (extent - 1)`, and whose upper bound is the offset plus the same
sum over the axes with positive stride; zero-stride axes contribute to
neither bound. -/
theorem c6_data_range_bounds (l : Layout) :
    l.data_range =
      (l.offset + ((l.axes.filter fun p => decide (p.2 < 0)).map
          fun p => p.2 * ((p.1 : Int) - 1)).sum,
       l.offset + ((l.axes.filter fun p => decide (0 < p.2)).map
          fun p => p.2 * ((p.1 : Int) - 1)).sum) :=
  dataRange_foldl l.axes l.offset l.offset

/-! Construction. -/

/-- C2, counterexample.  The constructor `new` accepts shape `[2]`, strides
`[-1]`, offset `0` and returns a layout, even though the spec's
non-negative-minimum-offset validation rejects this input (its only partial
accumulation is `0 + (2-1)*(-1) = -1 < 0`). -/
theorem c2_new_accepts_negative_min_offset :
    new [2] [-1] 0 = .returns ⟨0, [2], [-1]⟩ ∧ specMinOffsetOk [2] [-1] 0 = false := by
  decide

/-- C2, amended.  `new` validates only the length equality
`len(shape) == len(strides)`: every input with equal lengths yields the
layout verbatim, with no minimum-offset scan. -/
theorem c2_new_checks_length_only (shape : List Nat) (strides : List Int) (offset : Int)
    (h : shape.length = strides.length) :
    new shape strides offset = .returns ⟨offset, shape, strides⟩ := by
  simp [new, h]

/-- C2, witness for the amended theorem. -/
theorem c2_new_checks_length_only_witness :
    new [2, 3] [4, -5] 7 = .returns ⟨7, [2, 3], [4, -5]⟩ :=
  c2_new_checks_length_only [2, 3] [4, -5] 7 rfl

/-! Split. -/

/-- C3, counterexample.  With partition sizes `[1, 2]` that do not sum to the
extent 4 of axis 2, `split` terminates as a contract violation (a failed
`assert_eq!`), not as an absent-result outcome distinguishable from
success. -/
theorem c3_split_mismatch_asserts :
    split ⟨0, [2, 3, 4], [12, 4, 1]⟩ 2 [1, 2] = .panics := by
  decide

/-- C3, amended.  For every layout and every sequence of partition sizes that
does not sum to the target axis's extent, `split` terminates as a contract
violation (assertion failure) and never yields a layout. -/
theorem c3_split_mismatch_panics (l : Layout) (axis : Nat) (parts : List Nat)
    (ha : axis < l.shape.length) (hsum : parts.sum ≠ l.shape.getD axis 0) :
    split l axis parts = .panics := by
  simp only [split, if_pos ha]
  rw [if_neg fun h => hsum h.symm]

/-- C3, witness for the amended theorem. -/
theorem c3_split_mismatch_panics_witness :
    split ⟨5, [4], [1]⟩ 0 [1, 2] = .panics :=
  c3_split_mismatch_panics ⟨5, [4], [1]⟩ 0 [1, 2] (by decide) (by decide)

/-! Merge. -/

/-- C1.  On the layout with shape `[2, 2]`, strides `[1, 3]` and offset 0 the
run `0..2` is not mergeable under the spec's condition (the sorted adjacent
pair has `3 ≠ 1 * 2` and no extent is 1), yet `merge` — through the `s == 1`
disjunct of its compatibility test — returns a merged layout of shape `[4]`,
stride `[1]`; that layout addresses position 2 instead of position 4, so the
result is stride-inconsistent with the input rather than an explicit
`not mergeable` outcome. -/
theorem c1_merge_fabricates_inconsistent_layout :
    merge ⟨0, [2, 2], [1, 3]⟩ 0 2 = .returns (some ⟨0, [4], [1]⟩) ∧
    specCompatAdj (sortAbs (Layout.axes ⟨0, [2, 2], [1, 3]⟩)) = false ∧
    (4 : Int) ∈ Layout.addresses ⟨0, [2, 2], [1, 3]⟩ ∧
    (4 : Int) ∉ Layout.addresses ⟨0, [4], [1]⟩ := by
  decide

/-! The index axis loop. -/

theorem indexGo_nil (sh : List Nat) (i : Nat) (A : List (Nat × Int)) :
    indexGo sh [] i A = .returns (0, A) := by
  induction A generalizing i with
  | nil => rfl
  | cons p A ih => simp [indexGo, ih, RustOutcome.map]

theorem indexGo_keepFront (sh : List Nat) (front : List (Nat × Int)) (args : List (Nat × Nat))
    (back : List (Nat × Int)) (i : Nat)
    (h : ∀ a idx tail, args = (a, idx) :: tail → i + front.length ≤ a) :
    indexGo sh args i (front ++ back) =
      (indexGo sh args (i + front.length) back).map fun r => (r.1, front ++ r.2) := by
  induction front generalizing i with
  | nil =>
    simp only [List.nil_append, List.length_nil, Nat.add_zero]
    cases indexGo sh args i back <;> rfl
  | cons p front ih =>
    obtain ⟨d, s⟩ := p
    cases args with
    | nil =>
      rw [indexGo_nil, indexGo_nil]
      rfl
    | cons a0 tail =>
      obtain ⟨a, idx⟩ := a0
      have ha : i + front.length + 1 ≤ a := by
        have := h a idx tail rfl
        simp only [List.length_cons] at this
        omega
      have hne : ¬(a = i) := by omega
      have h2 : ∀ a2 idx2 tail2, ((a, idx) :: tail : List (Nat × Nat)) = (a2, idx2) :: tail2 →
          i + 1 + front.length ≤ a2 := by
        intro a2 idx2 tail2 heq
        cases heq
        omega
      have hc : i + (((d, s) :: front : List (Nat × Int)).length) = i + 1 + front.length := by
        simp only [List.length_cons]
        omega
      simp only [List.cons_append, indexGo, if_neg hne, List.append_eq]
      rw [ih (i + 1) h2, RustOutcome.map_map, hc]

theorem indexGo_single (sh : List Nat) (A : List (Nat × Int)) (a idx i : Nat)
    (hi : i ≤ a) (hbound : a - i < A.length) :
    indexGo sh [(a, idx)] i A =
      .returns ((idx : Int) * (A.getD (a - i) (0, 0)).2, A.eraseIdx (a - i)) := by
  induction A generalizing i with
  | nil => simp at hbound
  | cons p A ih =>
    obtain ⟨d, s⟩ := p
    by_cases hai : a = i
    · subst hai
      simp only [indexGo, if_pos rfl, indexGo_nil, Nat.sub_self]
      simp [RustOutcome.map]
    · have h1 : i + 1 ≤ a := by omega
      have h2 : a - (i + 1) < A.length := by
        simp only [List.length_cons] at hbound
        omega
      have hsub : a - i = (a - (i + 1)) + 1 := by omega
      simp only [indexGo, if_neg hai]
      rw [ih (i + 1) h1 h2]
      simp [RustOutcome.map, hsub]

/-- C5.  For `a < rank` and `i < shape[a]`, `index(a, i)` returns the layout
whose offset is the old offset plus `i * strides[a]` and whose shape and
strides have axis `a` removed, all other axes keeping their order and
values (so the rank drops by one). -/
theorem c5_index_removes_axis (l : Layout) (a idx : Nat) (hwf : l.wf) (ha : a < l.ndim)
    (hidx : idx < l.shape.getD a 0) :
    index l a idx =
      .returns ⟨l.offset + (idx : Int) * l.strides.getD a 0,
        l.shape.eraseIdx a, l.strides.eraseIdx a⟩ := by
  have ha1 : a < l.shape.length := ha
  have ha2 : a < l.strides.length := hwf ▸ ha
  have hlen : a < l.axes.length := by rw [Layout.axes_length l hwf]; exact ha
  have hok : indexArgOk l.shape (a, idx) = true := by
    simp only [indexArgOk, Bool.and_eq_true, decide_eq_true_eq]
    exact ⟨ha1, hidx⟩
  have hgetD : l.axes.getD a (0, 0) = (l.shape.getD a 0, l.strides.getD a 0) := by
    simp only [Layout.axes]
    exact zip_getD l.shape l.strides a ha1 ha2
  have e1 : (l.axes.eraseIdx a).map Prod.fst = l.shape.eraseIdx a := by
    rw [map_eraseIdx]
    simp only [Layout.axes]
    rw [List.map_fst_zip _ _ (le_of_eq hwf)]
  have e2 : (l.axes.eraseIdx a).map Prod.snd = l.strides.eraseIdx a := by
    rw [map_eraseIdx]
    simp only [Layout.axes]
    rw [List.map_snd_zip _ _ (ge_of_eq hwf)]
  simp only [index, index_many, hok, if_pos]
  rw [indexGo_single l.shape l.axes a idx 0 (Nat.zero_le a) (by simpa using hlen)]
  simp only [Nat.sub_zero, RustOutcome.map, Layout.ofAxes, hgetD, e1, e2]

/-- C5, witness: the spec's scenario `new([2,3,4],[12,4,1],0)`, `index(1,2)`. -/
theorem c5_index_removes_axis_witness :
    index ⟨0, [2, 3, 4], [12, 4, 1]⟩ 1 2 = .returns ⟨8, [2, 4], [12, 1]⟩ :=
  (c5_index_removes_axis ⟨0, [2, 3, 4], [12, 4, 1]⟩ 1 2 (by decide) (by decide)
    (by decide)).trans (by decide)

/-! The slice axis loop. -/

theorem sliceGo_nil (n i : Nat) (A : List (Nat × Int)) :
    sliceGo n [] i A = .returns (0, A) := by
  induction A generalizing i with
  | nil => rfl
  | cons p A ih => simp [sliceGo, ih, RustOutcome.map]

theorem sliceGo_keepFront (n : Nat) (front : List (Nat × Int)) (args : List SliceArg)
    (back : List (Nat × Int)) (i : Nat)
    (h : ∀ arg tail, args = arg :: tail → i + front.length ≤ arg.axis) :
    sliceGo n args i (front ++ back) =
      (sliceGo n args (i + front.length) back).map fun r => (r.1, front ++ r.2) := by
  induction front generalizing i with
  | nil =>
    simp only [List.nil_append, List.length_nil, Nat.add_zero]
    cases sliceGo n args i back <;> rfl
  | cons p front ih =>
    obtain ⟨d, s⟩ := p
    cases args with
    | nil =>
      rw [sliceGo_nil, sliceGo_nil]
      rfl
    | cons arg tail =>
      have ha : i + front.length + 1 ≤ arg.axis := by
        have := h arg tail rfl
        simp only [List.length_cons] at this
        omega
      have hne : ¬(arg.axis = i) := by omega
      have h2 : ∀ arg2 tail2, (arg :: tail : List SliceArg) = arg2 :: tail2 →
          i + 1 + front.length ≤ arg2.axis := by
        intro arg2 tail2 heq
        cases heq
        omega
      have hc : i + (((d, s) :: front : List (Nat × Int)).length) = i + 1 + front.length := by
        simp only [List.length_cons]
        omega
      simp only [List.cons_append, sliceGo, if_neg hne, List.append_eq]
      rw [ih (i + 1) h2, RustOutcome.map_map, hc]

theorem sliceGo_single (n : Nat) (A : List (Nat × Int)) (arg : SliceArg) (i : Nat)
    (hi : i ≤ arg.axis) (hbound : arg.axis - i < A.length) :
    sliceGo n [arg] i A =
      (sliceAxis (A.getD (arg.axis - i) (0, 0)).1 (A.getD (arg.axis - i) (0, 0)).2 arg).map
        fun body => (body.1, A.set (arg.axis - i) (body.2.1, body.2.2)) := by
  induction A generalizing i with
  | nil => simp at hbound
  | cons p A ih =>
    obtain ⟨d, s⟩ := p
    by_cases hai : arg.axis = i
    · rw [show sliceGo n [arg] i ((d, s) :: A) =
          (sliceAxis d s arg).bind fun body =>
            (sliceGo n [] (i + 1) A).map fun r =>
              (body.1 + r.1, (body.2.1, body.2.2) :: r.2) from by
        simp only [sliceGo, if_pos hai, if_true]]
      rw [sliceGo_nil]
      have hz : arg.axis - i = 0 := by omega
      simp only [hz, List.getD_cons_zero, List.set_cons_zero]
      cases sliceAxis d s arg <;> simp [RustOutcome.bind, RustOutcome.map]
    · have h1 : i + 1 ≤ arg.axis := by omega
      have h2 : arg.axis - (i + 1) < A.length := by
        simp only [List.length_cons] at hbound
        omega
      have hsub : arg.axis - i = (arg.axis - (i + 1)) + 1 := by omega
      simp only [sliceGo, if_neg hai]
      rw [ih (i + 1) h1 h2, RustOutcome.map_map]
      simp only [hsub, List.getD_cons_succ, List.set_cons_succ]

/-- Closed form of a single-argument `slice_many` call in terms of
`sliceAxis`. -/
theorem slice_eq_sliceAxis (l : Layout) (arg : SliceArg) (hwf : l.wf)
    (ha : arg.axis < l.ndim) :
    slice l arg.axis arg.start arg.step arg.len =
      (sliceAxis (l.shape.getD arg.axis 0) (l.strides.getD arg.axis 0) arg).map
        fun body =>
          ⟨l.offset + body.1, l.shape.set arg.axis body.2.1,
            l.strides.set arg.axis (body.2.2)⟩ := by
  have ha1 : arg.axis < l.shape.length := ha
  have ha2 : arg.axis < l.strides.length := hwf ▸ ha
  have hlen : arg.axis < l.axes.length := by rw [Layout.axes_length l hwf]; exact ha
  have hgetD : l.axes.getD arg.axis (0, 0) =
      (l.shape.getD arg.axis 0, l.strides.getD arg.axis 0) := by
    simp only [Layout.axes]
    exact zip_getD l.shape l.strides arg.axis ha1 ha2
  have e1 : ∀ x : Nat × Int, (l.axes.set arg.axis x).map Prod.fst = l.shape.set arg.axis x.1 := by
    intro x
    rw [List.map_set]
    simp only [Layout.axes]
    rw [List.map_fst_zip _ _ (le_of_eq hwf)]
  have e2 : ∀ x : Nat × Int, (l.axes.set arg.axis x).map Prod.snd = l.strides.set arg.axis x.2 := by
    intro x
    rw [List.map_set]
    simp only [Layout.axes]
    rw [List.map_snd_zip _ _ (ge_of_eq hwf)]
  simp only [slice, slice_many]
  rw [sliceGo_single l.ndim l.axes ⟨arg.axis, arg.start, arg.step, arg.len⟩ 0
    (Nat.zero_le _) (by simpa using hlen)]
  simp only [Nat.sub_zero, RustOutcome.map_map, hgetD]
  cases sliceAxis (l.shape.getD arg.axis 0) (l.strides.getD arg.axis 0) arg with
  | panics => rfl
  | returns body =>
    simp only [RustOutcome.map, Layout.ofAxes, e1, e2]

/-- Evaluation of the per-axis slice body when the start is in range. -/
theorem sliceAxis_in_range (d : Nat) (s : Int) (arg : SliceArg) (hs : arg.start < d) :
    sliceAxis d s arg =
      .returns ((arg.start : Int) * s,
        min (if 0 < arg.step then divCeil (d - arg.start) arg.step.toNat
             else if arg.step = 0 then arg.len
             else divCeil (arg.start + 1) (-arg.step).toNat) arg.len,
        s * arg.step) := by
  rcases lt_trichotomy arg.step 0 with h | h | h
  · have h1 : ¬(0 < arg.step) := by omega
    have h2 : ¬(arg.step = 0) := by omega
    have h3 : ¬(d = 0) := by omega
    have hmin : min arg.start (d - 1) = arg.start := by omega
    simp only [sliceAxis, if_neg h1, if_neg h2, if_neg h3, hmin]
  · simp only [sliceAxis, if_neg (show ¬(0 < arg.step) by omega), if_pos h, if_pos hs,
      min_self]
  · simp only [sliceAxis, if_pos h, if_pos hs]

/-- C4.  For `a < rank`, `start < shape[a]`, any step `k` and requested
length `len`, `slice` returns the rank-preserving layout whose stride at `a`
is `strides[a] * k`, whose extent at `a` is `min(remaining, len)` with
`remaining = ceil((shape[a]-start)/k)` for `k > 0`, `len` for `k = 0` and
`ceil((start+1)/|k|)` for `k < 0`, whose offset grows by
`start * strides[a]`, and whose other axes are unchanged. -/
theorem c4_slice_formula (l : Layout) (a start : Nat) (k : Int) (len : Nat)
    (hwf : l.wf) (ha : a < l.ndim) (hs : start < l.shape.getD a 0) :
    slice l a start k len =
      .returns ⟨l.offset + (start : Int) * l.strides.getD a 0,
        l.shape.set a (min (if 0 < k then divCeil (l.shape.getD a 0 - start) k.toNat
            else if k = 0 then len else divCeil (start + 1) (-k).toNat) len),
        l.strides.set a (l.strides.getD a 0 * k)⟩ := by
  rw [slice_eq_sliceAxis l ⟨a, start, k, len⟩ hwf ha,
    sliceAxis_in_range _ _ ⟨a, start, k, len⟩ hs]
  rfl

/-- C4, witness: the spec's scenario `new([2,3,4],[12,4,1],0)`,
`slice(1,2,-1,2)` giving shape `[2,2,4]`, strides `[12,-4,1]`, offset 8. -/
theorem c4_slice_formula_witness :
    slice ⟨0, [2, 3, 4], [12, 4, 1]⟩ 1 2 (-1) 2 =
      .returns ⟨8, [2, 2, 4], [12, -4, 1]⟩ :=
  (c4_slice_formula ⟨0, [2, 3, 4], [12, 4, 1]⟩ 1 2 (-1) 2 (by decide) (by decide)
    (by decide)).trans (by decide)

/-- C8, counterexample.  With a negative step, `slice` on a start that is out
of range (`5 ≥ shape[1] = 3`) does not panic: it clamps the start to
`shape[1] - 1` and returns a layout. -/
theorem c8_slice_oob_negative_step_returns :
    slice ⟨0, [2, 3, 4], [12, 4, 1]⟩ 1 5 (-1) 2 =
      .returns ⟨8, [2, 2, 4], [12, -4, 1]⟩ := by
  decide

/-- C8, amended.  For `a < rank` and `start ≥ shape[a]`: with a non-negative
step the slice call fails as a contract violation, but with a negative step
the start is clamped to `shape[a] - 1` (when the extent is positive) and a
layout is returned. -/
theorem c8_slice_start_out_of_range (l : Layout) (a start : Nat) (k : Int) (len : Nat)
    (hwf : l.wf) (ha : a < l.ndim) (hs : l.shape.getD a 0 ≤ start) :
    (0 ≤ k → slice l a start k len = .panics) ∧
    (k < 0 → 0 < l.shape.getD a 0 →
      slice l a start k len =
        .returns ⟨l.offset + ((l.shape.getD a 0 : Int) - 1) * l.strides.getD a 0,
          l.shape.set a (min (divCeil (l.shape.getD a 0) (-k).toNat) len),
          l.strides.set a (l.strides.getD a 0 * k)⟩) := by
  constructor
  · intro hk
    rw [slice_eq_sliceAxis l ⟨a, start, k, len⟩ hwf ha]
    have hax : sliceAxis (l.shape.getD a 0) (l.strides.getD a 0) ⟨a, start, k, len⟩ =
        .panics := by
      by_cases h1 : 0 < k
      · simp only [sliceAxis, if_pos h1, if_neg (show ¬(start < l.shape.getD a 0) by omega)]
      · have h0 : k = 0 := by omega
        simp only [sliceAxis, if_neg h1, if_pos h0,
          if_neg (show ¬(start < l.shape.getD a 0) by omega)]
    rw [hax]
    rfl
  · intro hk hd
    rw [slice_eq_sliceAxis l ⟨a, start, k, len⟩ hwf ha]
    have h1 : ¬(0 < k) := by omega
    have h2 : ¬(k = 0) := by omega
    have h3 : ¬(l.shape.getD a 0 = 0) := by omega
    have hmin : min start (l.shape.getD a 0 - 1) = l.shape.getD a 0 - 1 := by omega
    have hc1 : ((l.shape.getD a 0 - 1 : Nat) : Int) = (l.shape.getD a 0 : Int) - 1 := by
      omega
    have hc2 : l.shape.getD a 0 - 1 + 1 = l.shape.getD a 0 := by omega
    simp only [sliceAxis, if_neg h1, if_neg h2, if_neg h3, hmin, hc1, hc2, RustOutcome.map]

/-- C8, witness for the amended theorem: `slice(1, 7, -2, 9)` on
`new([2,3,4],[12,4,1],0)` clamps the start to 2 and returns a layout. -/
theorem c8_slice_start_out_of_range_witness :
    slice ⟨0, [2, 3, 4], [12, 4, 1]⟩ 1 7 (-2) 9 =
      .returns ⟨8, [2, 2, 4], [12, -8, 1]⟩ :=
  ((c8_slice_start_out_of_range ⟨0, [2, 3, 4], [12, 4, 1]⟩ 1 7 (-2) 9 (by decide)
    (by decide) (by decide)).2 (by decide) (by decide)).trans (by decide)

/-! Broadcast. -/

/-- C10.  For an axis `a` with extent 1 or stride 0, `broadcast(a, times)`
succeeds for every `times` — including 0 and values below the current
extent — and returns a layout with extent `times` and stride 0 at `a` and
everything else unchanged. -/
theorem c10_broadcast_sets_axis (l : Layout) (a times : Nat)
    (hwf : l.wf) (ha : a < l.ndim)
    (hb : l.shape.getD a 0 = 1 ∨ l.strides.getD a 0 = 0) :
    broadcast l a times = .returns ⟨l.offset, l.shape.set a times, l.strides.set a 0⟩ := by
  have h2 : a < l.strides.length := hwf ▸ ha
  simp only [broadcast, broadcast_many, List.foldl_cons, List.foldl_nil,
    RustOutcome.bind, broadcastStep]
  rw [if_pos ⟨ha, h2⟩, if_pos hb]

/-- C10, witness: broadcasting axis 0 of `[1, 5, 2]`/`[10, 2, 1]` to 0
repetitions (fewer than the current extent) succeeds. -/
theorem c10_broadcast_sets_axis_witness :
    broadcast ⟨0, [1, 5, 2], [10, 2, 1]⟩ 0 0 =
      .returns ⟨0, [0, 5, 2], [0, 2, 1]⟩ :=
  c10_broadcast_sets_axis ⟨0, [1, 5, 2], [10, 2, 1]⟩ 0 0 (by decide) (by decide)
    (by decide)

/-! The tile axis loop. -/

theorem tileGo_nil (i : Nat) (A : List (Nat × Int)) :
    tileGo [] i A = .returns A := by
  induction A generalizing i with
  | nil => rfl
  | cons p A ih => simp [tileGo, ih, RustOutcome.map]

theorem tileGo_single (arg : TileArg) (A : List (Nat × Int)) (i : Nat)
    (hi : i ≤ arg.axis) (hbound : arg.axis - i < A.length) :
    tileGo [arg] i A =
      (tileAxis (A.getD (arg.axis - i) (0, 0)).1 (A.getD (arg.axis - i) (0, 0)).2 arg).map
        fun new => A.take (arg.axis - i) ++ new ++ A.drop (arg.axis - i + 1) := by
  induction A generalizing i with
  | nil => simp at hbound
  | cons p A ih =>
    obtain ⟨d, s⟩ := p
    by_cases hai : arg.axis = i
    · have hz : arg.axis - i = 0 := by omega
      simp only [tileGo, if_pos hai, tileGo_nil, hz, List.getD_cons_zero, List.take_zero,
        Nat.zero_add, List.drop_one, List.nil_append, List.tail_cons]
      cases tileAxis d s arg <;> simp [RustOutcome.bind, RustOutcome.map]
    · have h1 : i + 1 ≤ arg.axis := by omega
      have h2 : arg.axis - (i + 1) < A.length := by
        simp only [List.length_cons] at hbound
        omega
      have hsub : arg.axis - i = (arg.axis - (i + 1)) + 1 := by omega
      simp only [tileGo, if_neg hai]
      rw [ih (i + 1) h1 h2, RustOutcome.map_map]
      simp only [hsub, List.getD_cons_succ, List.take_succ_cons, List.drop_succ_cons,
        List.cons_append]

/-- Closed form of a single-argument `tile_many` call. -/
theorem tile_single (l : Layout) (ax : Nat) (ord : TileOrder) (ts : List Nat)
    (hwf : l.wf) (ha : ax < l.ndim) (hok : l.shape.getD ax 0 = ts.prod) :
    tile_many l [⟨ax, ord, ts⟩] =
      (tileAxis (l.shape.getD ax 0) (l.strides.getD ax 0) ⟨ax, ord, ts⟩).map
        fun new =>
          Layout.ofAxes l.offset (l.axes.take ax ++ new ++ l.axes.drop (ax + 1)) := by
  have ha1 : ax < l.shape.length := ha
  have ha2 : ax < l.strides.length := hwf ▸ ha
  have hlen : ax < l.axes.length := by rw [Layout.axes_length l hwf]; exact ha
  have hchk : (tileArgOk l.shape ⟨ax, ord, ts⟩ &&
      tileRestOk l.shape [] (⟨ax, ord, ts⟩ : TileArg).axis) = true := by
    simp only [tileArgOk, tileRestOk, Bool.and_true, Bool.and_eq_true, decide_eq_true_eq]
    exact ⟨ha1, hok⟩
  have hgetD : l.axes.getD ax (0, 0) = (l.shape.getD ax 0, l.strides.getD ax 0) := by
    simp only [Layout.axes]
    exact zip_getD l.shape l.strides ax ha1 ha2
  simp only [tile_many, hchk, if_pos]
  rw [tileGo_single ⟨ax, ord, ts⟩ l.axes 0 (Nat.zero_le _) (by simpa using hlen)]
  simp only [Nat.sub_zero, RustOutcome.map_map, hgetD]

/-- Evaluation of the big-endian tile body on two nonzero tile sizes whose
product is the axis extent: the divisions are exact. -/
theorem tileAxis_be_pair (d p q : Nat) (s : Int) (hp : p ≠ 0) (hq : q ≠ 0)
    (hd : d = p * q) (a : Nat) :
    tileAxis d s ⟨a, .bigEndian, [p, q]⟩ = .returns [(p, s * q), (q, s)] := by
  have hp0 : (p : Int) ≠ 0 := Int.natCast_ne_zero.mpr hp
  have hq0 : (q : Int) ≠ 0 := Int.natCast_ne_zero.mpr hq
  have h1 : (s * (d : Int)).tdiv p = s * q := by
    have hcast : s * (d : Int) = (p : Int) * (s * q) := by
      rw [hd]
      push_cast
      ring
    rw [hcast, Int.mul_tdiv_cancel_left _ hp0]
  have h2 : (s * (q : Int)).tdiv q = s := Int.mul_tdiv_cancel _ hq0
  simp only [tileAxis, tileBE, if_neg hp, if_neg hq, h1, h2, RustOutcome.map]

/-- Evaluation of the little-endian tile body on two tile sizes. -/
theorem tileAxis_le_pair (d p q : Nat) (s : Int) (a : Nat) :
    tileAxis d s ⟨a, .littleEndian, [p, q]⟩ = .returns [(p, s), (q, s * p)] := by
  simp [tileAxis, tileLE, RustOutcome.map]

/-- Merging the axis range `st..st+2` of a layout whose axes are
`front ++ [x, y] ++ back` with `front.length = st`. -/
theorem merge_pair (o : Int) (front back : List (Nat × Int)) (x y : Nat × Int)
    (st en : Nat) (hst : front.length = st) (hen : en = st + 2) :
    merge (Layout.ofAxes o (front ++ [x, y] ++ back)) st en =
      .returns ((mergeRun [x, y]).map fun pr =>
        Layout.ofAxes o (front ++ pr :: back)) := by
  subst hst
  subst hen
  have haxes : (Layout.ofAxes o (front ++ [x, y] ++ back)).axes =
      front ++ [x, y] ++ back := Layout.axes_ofAxes _ _
  have hcond : front.length < front.length + 2 ∧
      front.length + 2 ≤ (front ++ [x, y] ++ back : List (Nat × Int)).length := by
    constructor
    · omega
    · simp only [List.length_append, List.length_cons, List.length_nil]
      omega
  have hdrop : (front ++ [x, y] ++ back : List (Nat × Int)).drop front.length =
      [x, y] ++ back := by
    rw [List.append_assoc, List.drop_left]
  have htake2 : (([x, y] ++ back : List (Nat × Int))).take (front.length + 2 - front.length) =
      [x, y] := by
    have h2 : front.length + 2 - front.length = 2 := by omega
    rw [h2]
    rfl
  have htake : (front ++ [x, y] ++ back : List (Nat × Int)).take front.length = front := by
    rw [List.append_assoc, List.take_left]
  have hdrop2 : (front ++ [x, y] ++ back : List (Nat × Int)).drop (front.length + 2) =
      back := by
    have h2 : front.length + 2 = (front ++ [x, y] : List (Nat × Int)).length := by simp
    rw [h2, List.drop_left]
  simp only [merge, haxes, hdrop, htake2, htake, hdrop2]
  rw [if_pos hcond]
  cases mergeRun [x, y] with
  | none => rfl
  | some pr => rfl

/-- C7, counterexample.  Tiling the extent-0 axis of the layout with shape
`[0]`, strides `[1]` with sizes `[0, 1]` (product `0 = shape[0]`, little-
endian) succeeds, and merging the two resulting axes back also succeeds, but
the result has stride 0 instead of the original stride 1: the round trip
does not reproduce the original layout. -/
theorem c7_tile_merge_roundtrip_fails :
    (tile_many ⟨0, [0], [1]⟩ [⟨0, .littleEndian, [0, 1]⟩]).bind
        (fun l2 => merge l2 0 2) =
      .returns (some ⟨0, [0], [0]⟩) ∧
    (⟨0, [0], [0]⟩ : Layout) ≠ ⟨0, [0], [1]⟩ := by
  decide

/-- C7, amended.  For positive sizes `p, q` with `p * q = shape[a]`, tiling
axis `a` with `[p, q]` under either order policy and then merging the two
resulting axes back together succeeds and yields a layout equal to the
original. -/
theorem c7_tile_merge_inverse (l : Layout) (a p q : Nat) (ord : TileOrder)
    (hwf : l.wf) (ha : a < l.ndim) (hd : l.shape.getD a 0 = p * q)
    (hp : 0 < p) (hq : 0 < q) :
    (tile_many l [⟨a, ord, [p, q]⟩]).bind (fun l2 => merge l2 a (a + 2)) =
      .returns (some l) := by
  have hlen : a < l.axes.length := by rw [Layout.axes_length l hwf]; exact ha
  have hfront : (l.axes.take a).length = a := by
    rw [List.length_take]
    omega
  have hok : l.shape.getD a 0 = ([p, q] : List Nat).prod := by
    simpa using hd
  have hrestore : ∀ pr : Nat × Int, pr = l.axes.getD a (0, 0) →
      Layout.ofAxes l.offset (l.axes.take a ++ pr :: l.axes.drop (a + 1)) = l := by
    intro pr hpr
    have hget : l.axes.getD a (0, 0) = l.axes[a] := by
      rw [List.getD_eq_getElem?_getD, List.getElem?_eq_getElem hlen]
      rfl
    have hcons : pr :: l.axes.drop (a + 1) = l.axes.drop a := by
      rw [hpr, hget]
      exact List.getElem_cons_drop l.axes a hlen
    rw [hcons, List.take_append_drop]
    exact Layout.ofAxes_axes_self l hwf
  have hgetD : l.axes.getD a (0, 0) = (l.shape.getD a 0, l.strides.getD a 0) := by
    simp only [Layout.axes]
    exact zip_getD l.shape l.strides a ha (hwf ▸ ha)
  set s := l.strides.getD a 0 with hs
  cases ord with
  | littleEndian =>
    rw [tile_single l a .littleEndian [p, q] hwf ha hok,
      tileAxis_le_pair (l.shape.getD a 0) p q s a, RustOutcome.map, RustOutcome.bind]
    rw [merge_pair l.offset (l.axes.take a) (l.axes.drop (a + 1)) (p, s) (q, s * p)
      a (a + 2) hfront rfl]
    have hsorted : mergeRun [(p, s), (q, s * (p : Int))] = some (p * q, s) := by
      have hle : s.natAbs ≤ (s * (p : Int)).natAbs := by
        rw [Int.natAbs_mul, Int.natAbs_ofNat]
        exact Nat.le_mul_of_pos_right _ hp
      simp only [mergeRun, sortAbs, insertAbs, if_pos hle, mergeGo]
      rw [if_pos (by simp)]
    rw [hsorted]
    simp only [Option.map_some']
    rw [hrestore (p * q, s) (by rw [hgetD, hd])]
  | bigEndian =>
    rw [tile_single l a .bigEndian [p, q] hwf ha hok,
      tileAxis_be_pair (l.shape.getD a 0) p q s (by omega) (by omega) hd a,
      RustOutcome.map, RustOutcome.bind]
    rw [merge_pair l.offset (l.axes.take a) (l.axes.drop (a + 1)) (p, s * q) (q, s)
      a (a + 2) hfront rfl]
    by_cases hcmp : (s * (q : Int)).natAbs ≤ s.natAbs
    · have hsq : s * (q : Int) = s := by
        rw [Int.natAbs_mul, Int.natAbs_ofNat] at hcmp
        have hcase : s.natAbs = 0 ∨ q = 1 := by
          rcases Nat.eq_zero_or_pos s.natAbs with h0 | h0
          · exact Or.inl h0
          · right
            nlinarith
        rcases hcase with h0 | h0
        · have hz : s = 0 := Int.natAbs_eq_zero.mp h0
          rw [hz]
          ring
        · rw [h0]
          ring
      have hsorted : mergeRun [(p, s * (q : Int)), (q, s)] = some (p * q, s) := by
        simp only [mergeRun, sortAbs, insertAbs, if_pos hcmp, mergeGo]
        rw [if_pos (by simp), hsq]
      rw [hsorted]
      simp only [Option.map_some']
      rw [hrestore (p * q, s) (by rw [hgetD, hd])]
    · have hsorted : mergeRun [(p, s * (q : Int)), (q, s)] = some (q * p, s) := by
        simp only [mergeRun, sortAbs, insertAbs, if_neg hcmp, mergeGo]
        rw [if_pos (by simp)]
      rw [hsorted]
      simp only [Option.map_some']
      rw [hrestore (q * p, s) (by rw [hgetD, hd, Nat.mul_comm])]

/-- C7, witness for the amended theorem: tiling axis 1 of
`new([5,6,4],[9,-8,2],7)` with `[2,3]` big-endian and merging `1..3`
reproduces the layout. -/
theorem c7_tile_merge_inverse_witness :
    (tile_many ⟨7, [5, 6, 4], [9, -8, 2]⟩ [⟨1, .bigEndian, [2, 3]⟩]).bind
        (fun l2 => merge l2 1 3) =
      .returns (some ⟨7, [5, 6, 4], [9, -8, 2]⟩) :=
  c7_tile_merge_inverse ⟨7, [5, 6, 4], [9, -8, 2]⟩ 1 2 3 .bigEndian (by decide)
    (by decide) (by decide) (by decide) (by decide)

/-! Helper lemmas for the many-versus-single equivalence. -/

theorem Layout.ofAxes_offset (o : Int) (A : List (Nat × Int)) :
    (Layout.ofAxes o A).offset = o := rfl

theorem Layout.ofAxes_shape (o : Int) (A : List (Nat × Int)) :
    (Layout.ofAxes o A).shape = A.map Prod.fst := rfl

theorem eraseIdx_getElem?_shift {α : Type} (L : List α) (a b : Nat)
    (hab : a < b) : (L.eraseIdx a)[b - 1]? = L[b]? := by
  induction L generalizing a b with
  | nil => simp [List.eraseIdx]
  | cons x L ih =>
    cases a with
    | zero =>
      have hb : b = (b - 1) + 1 := by omega
      rw [List.eraseIdx_cons_zero, hb, List.getElem?_cons_succ, Nat.add_sub_cancel]
    | succ a =>
      have hb1 : b - 1 = (b - 2) + 1 := by omega
      have hb2 : b = (b - 1) + 1 := by omega
      rw [List.eraseIdx_cons_succ, hb1, List.getElem?_cons_succ,
        show (b - 2 : Nat) = (b - 1) - 1 from by omega, ih a (b - 1) (by omega), hb2,
        List.getElem?_cons_succ, Nat.add_sub_cancel]

theorem getD_eraseIdx_shift (sh : List Nat) (a b : Nat) (hab : a < b) :
    (sh.eraseIdx a).getD (b - 1) 0 = sh.getD b 0 := by
  rw [List.getD_eq_getElem?_getD, List.getD_eq_getElem?_getD,
    eraseIdx_getElem?_shift sh a b hab]

theorem indexArgOk_eraseIdx (sh : List Nat) (a : Nat) (ha : a < sh.length)
    (p : Nat × Nat) (hp : a < p.1) :
    indexArgOk (sh.eraseIdx a) (p.1 - 1, p.2) = indexArgOk sh p := by
  have hlen : (sh.eraseIdx a).length = sh.length - 1 := by
    rw [List.length_eraseIdx, if_pos ha]
  simp only [indexArgOk, hlen, getD_eraseIdx_shift sh a p.1 hp]
  have hiff : decide (p.1 - 1 < sh.length - 1) = decide (p.1 < sh.length) :=
    decide_eq_decide.mpr (by omega)
  rw [hiff]

theorem zip_set (sh : List Nat) (st : List Int) (a : Nat) (x : Nat) (y : Int) :
    (sh.set a x).zip (st.set a y) = (sh.zip st).set a (x, y) := by
  induction sh generalizing st a with
  | nil => simp
  | cons d sh ih =>
    cases st with
    | nil => simp
    | cons s st =>
      cases a with
      | zero => rfl
      | succ a =>
        simp only [List.set_cons_succ, List.zip_cons_cons]
        rw [ih st a]

theorem set_middle {α : Type} (front back : List α) (z x : α) :
    (front ++ z :: back).set front.length x = front ++ x :: back := by
  induction front with
  | nil => rfl
  | cons w front ih =>
    simp only [List.cons_append, List.length_cons, List.set_cons_succ, ih]

theorem axes_decomp (l : Layout) (a : Nat) (ha : a < l.axes.length) :
    l.axes = l.axes.take a ++ l.axes.getD a (0, 0) :: l.axes.drop (a + 1) := by
  have hget : l.axes.getD a (0, 0) = l.axes[a] := by
    rw [List.getD_eq_getElem?_getD, List.getElem?_eq_getElem ha]
    rfl
  rw [hget, List.getElem_cons_drop l.axes a ha, List.take_append_drop]

/-- Closed form of a single-axis index in terms of `ofAxes`. -/
theorem index_closed (l : Layout) (a idx : Nat) (hwf : l.wf) (ha : a < l.ndim)
    (hidx : idx < l.shape.getD a 0) :
    index l a idx =
      .returns (Layout.ofAxes (l.offset + (idx : Int) * l.strides.getD a 0)
        (l.axes.eraseIdx a)) := by
  have ha1 : a < l.shape.length := ha
  have ha2 : a < l.strides.length := hwf ▸ ha
  have hlen : a < l.axes.length := by rw [Layout.axes_length l hwf]; exact ha
  have hok : indexArgOk l.shape (a, idx) = true := by
    simp only [indexArgOk, Bool.and_eq_true, decide_eq_true_eq]
    exact ⟨ha1, hidx⟩
  have hgetD : l.axes.getD a (0, 0) = (l.shape.getD a 0, l.strides.getD a 0) := by
    simp only [Layout.axes]
    exact zip_getD l.shape l.strides a ha1 ha2
  simp only [index, index_many, hok, if_pos]
  rw [indexGo_single l.shape l.axes a idx 0 (Nat.zero_le a) (by simpa using hlen)]
  simp only [Nat.sub_zero, RustOutcome.map, hgetD]

/-- Renumbering the arguments after an axis below them is removed: running
the index loop on the original arguments from counter `i + 1` against a
shape `sh` is the same as running it on the arguments with axes shifted down
by one from counter `i` against a shape `sh1` on which every argument checks
identically. -/
theorem indexGo_shift (sh sh1 : List Nat) (A : List (Nat × Int))
    (args : List (Nat × Nat)) (i : Nat)
    (hasc : List.Pairwise (fun p q : Nat × Nat => p.1 < q.1) args)
    (hmem : ∀ p ∈ args, i + 1 ≤ p.1 ∧ indexArgOk sh p = indexArgOk sh1 (p.1 - 1, p.2)) :
    indexGo sh args (i + 1) A = indexGo sh1 (args.map fun p => (p.1 - 1, p.2)) i A := by
  induction A generalizing args i with
  | nil => cases args <;> rfl
  | cons ds A ih =>
    obtain ⟨d, s⟩ := ds
    cases args with
    | nil =>
      rw [List.map_nil, indexGo_nil, indexGo_nil]
    | cons p tail =>
      obtain ⟨b, j⟩ := p
      have hb : i + 1 ≤ b := (hmem (b, j) (List.mem_cons_self _ _)).1
      have hbOk := (hmem (b, j) (List.mem_cons_self _ _)).2
      obtain ⟨hall, htail⟩ := List.pairwise_cons.mp hasc
      by_cases hbi : b = i + 1
      · subst hbi
        have hs : i + 1 - 1 = i := by omega
        have hmem2 : ∀ p ∈ tail, (i + 1) + 1 ≤ p.1 ∧
            indexArgOk sh p = indexArgOk sh1 (p.1 - 1, p.2) := by
          intro p hp
          exact ⟨by have := hall p hp; omega, (hmem p (List.mem_cons_of_mem _ hp)).2⟩
        cases tail with
        | nil =>
          simp only [List.map_cons, List.map_nil, indexGo, if_pos rfl, hs, if_true]
          rw [indexGo_nil, indexGo_nil]
        | cons next rest =>
          have hnext : i + 1 < next.1 := hall next (List.mem_cons_self _ _)
          have hnOk := (hmem next (List.mem_cons_of_mem _ (List.mem_cons_self _ _))).2
          have hchk : (indexArgOk sh next && decide (i + 1 < next.1)) =
              (indexArgOk sh1 (next.1 - 1, next.2) && decide (i < next.1 - 1)) := by
            rw [hnOk, decide_eq_decide.mpr (show (i + 1 < next.1) ↔
              (i < next.1 - 1) by omega)]
          simp only [List.map_cons, indexGo, if_pos rfl, hs, if_true]
          rw [← hchk]
          by_cases hc : (indexArgOk sh next && decide (i + 1 < next.1)) = true
          · rw [if_pos hc, if_pos hc, ih (next :: rest) (i + 1) htail hmem2, List.map_cons]
          · rw [if_neg hc, if_neg hc]
      · have hbi' : ¬(b - 1 = i) := by omega
        have hmem2 : ∀ p ∈ (b, j) :: tail, (i + 1) + 1 ≤ p.1 ∧
            indexArgOk sh p = indexArgOk sh1 (p.1 - 1, p.2) := by
          intro p hp
          refine ⟨?_, (hmem p hp).2⟩
          rcases List.mem_cons.mp hp with h | h
          · subst h
            omega
          · have := hall p h
            omega
        simp only [List.map_cons, indexGo, if_neg hbi, if_neg hbi']
        rw [ih ((b, j) :: tail) (i + 1) hasc hmem2, List.map_cons]

/-- Consuming the head index argument when the counter reaches its axis. -/
theorem indexGo_consume (sh : List Nat) (a idx : Nat) (tail : List (Nat × Nat))
    (dA : Nat) (sA : Int) (back : List (Nat × Int))
    (hchk : ∀ next rest, tail = next :: rest →
      (indexArgOk sh next && decide (a < next.1)) = true) :
    indexGo sh ((a, idx) :: tail) a ((dA, sA) :: back) =
      (indexGo sh tail (a + 1) back).map fun r => ((idx : Int) * sA + r.1, r.2) := by
  cases tail with
  | nil => simp only [indexGo, if_pos rfl, if_true]
  | cons next rest =>
    have h := hchk next rest rfl
    simp only [indexGo, if_pos rfl, h, if_true]

/-- Peeling the first argument off `index_many`: on valid, strictly
ascending arguments it equals the single-axis index followed by
`index_many` on the remaining arguments with their axes shifted down. -/
theorem index_many_peel (l : Layout) (a idx : Nat) (tail : List (Nat × Nat))
    (hwf : l.wf)
    (hasc : List.Pairwise (fun p q : Nat × Nat => p.1 < q.1) ((a, idx) :: tail))
    (hvalid : ∀ p ∈ (a, idx) :: tail, p.1 < l.ndim ∧ p.2 < l.shape.getD p.1 0) :
    index_many l ((a, idx) :: tail) =
      (index l a idx).bind fun l2 =>
        index_many l2 (tail.map fun p => (p.1 - 1, p.2)) := by
  obtain ⟨ha, hidx⟩ := hvalid (a, idx) (List.mem_cons_self _ _)
  obtain ⟨hall, htail⟩ := List.pairwise_cons.mp hasc
  have ha1 : a < l.shape.length := ha
  have hlen : a < l.axes.length := by rw [Layout.axes_length l hwf]; exact ha
  have hok : indexArgOk l.shape (a, idx) = true := by
    simp only [indexArgOk, Bool.and_eq_true, decide_eq_true_eq]
    exact ⟨ha1, hidx⟩
  have hgetD : l.axes.getD a (0, 0) = (l.shape.getD a 0, l.strides.getD a 0) := by
    simp only [Layout.axes]
    exact zip_getD l.shape l.strides a ha1 (hwf ▸ ha)
  have hfl : (l.axes.take a).length = a := by
    rw [List.length_take]
    omega
  have hdecomp := axes_decomp l a hlen
  have hL : index_many l ((a, idx) :: tail) =
      (indexGo l.shape tail (a + 1) (l.axes.drop (a + 1))).map fun r =>
        Layout.ofAxes (l.offset + ((idx : Int) * l.strides.getD a 0 + r.1))
          (l.axes.take a ++ r.2) := by
    simp only [index_many, hok, if_pos]
    conv_lhs => rw [hdecomp, hgetD]
    rw [indexGo_keepFront l.shape (l.axes.take a) ((a, idx) :: tail)
        ((l.shape.getD a 0, l.strides.getD a 0) :: l.axes.drop (a + 1)) 0
        (by intro a2 idx2 tail2 heq; cases heq; omega)]
    rw [Nat.zero_add, hfl]
    rw [indexGo_consume l.shape a idx tail (l.shape.getD a 0) (l.strides.getD a 0)
        (l.axes.drop (a + 1)) (by
      intro next rest heq
      subst heq
      have h1 := hvalid next (by simp)
      have h2 := hall next (by simp)
      simp only [indexArgOk, Bool.and_eq_true, decide_eq_true_eq]
      exact ⟨⟨h1.1, h1.2⟩, h2⟩)]
    rw [RustOutcome.map_map, RustOutcome.map_map]
  rw [index_closed l a idx hwf ha hidx, RustOutcome.bind_returns, hL]
  have hshape1 : (Layout.ofAxes (l.offset + (idx : Int) * l.strides.getD a 0)
      (l.axes.eraseIdx a)).shape = l.shape.eraseIdx a := by
    rw [Layout.ofAxes_shape, map_eraseIdx]
    simp only [Layout.axes]
    rw [List.map_fst_zip _ _ (le_of_eq hwf)]
  cases tail with
  | nil =>
    rw [List.map_nil, indexGo_nil]
    simp only [RustOutcome.map, index_many]
    rw [List.eraseIdx_eq_take_drop_succ, add_zero]
  | cons next rest =>
    have hnext1 := hvalid next (by simp)
    have hnexta : a < next.1 := hall next (by simp)
    have hokR : indexArgOk (Layout.ofAxes (l.offset + (idx : Int) * l.strides.getD a 0)
        (l.axes.eraseIdx a)).shape (next.1 - 1, next.2) = true := by
      rw [hshape1, indexArgOk_eraseIdx l.shape a ha1 next hnexta]
      simp only [indexArgOk, Bool.and_eq_true, decide_eq_true_eq]
      exact ⟨hnext1.1, hnext1.2⟩
    simp only [List.map_cons, index_many, hokR, if_pos]
    rw [Layout.axes_ofAxes, hshape1, List.eraseIdx_eq_take_drop_succ]
    rw [indexGo_keepFront (l.shape.eraseIdx a) (l.axes.take a)
        ((next.1 - 1, next.2) :: rest.map fun p => (p.1 - 1, p.2))
        (l.axes.drop (a + 1)) 0
        (by intro a2 idx2 tail2 heq; cases heq; omega)]
    rw [Nat.zero_add, hfl, RustOutcome.map_map]
    have hshift := indexGo_shift l.shape (l.shape.eraseIdx a) (l.axes.drop (a + 1))
        (next :: rest) a htail (by
      intro p hp
      refine ⟨by have := hall p hp; omega, ?_⟩
      exact (indexArgOk_eraseIdx l.shape a ha1 p (hall p hp)).symm)
    rw [List.map_cons] at hshift
    rw [hshift]
    cases indexGo (l.shape.eraseIdx a)
        ((next.1 - 1, next.2) :: rest.map fun p => (p.1 - 1, p.2)) a
        (l.axes.drop (a + 1)) with
    | panics => rfl
    | returns r =>
      simp only [RustOutcome.map, Layout.ofAxes_offset]
      rw [add_assoc]

/-- `index_many` on valid strictly ascending arguments equals the repeated
single-axis index with renumbered axes. -/
theorem index_many_eq_singles (args : List (Nat × Nat)) (l : Layout) (hwf : l.wf)
    (hasc : List.Pairwise (fun p q : Nat × Nat => p.1 < q.1) args)
    (hvalid : ∀ p ∈ args, p.1 < l.ndim ∧ p.2 < l.shape.getD p.1 0) :
    index_many l args = indexSingles args l := by
  have key : ∀ (n : Nat) (args2 : List (Nat × Nat)) (l2 : Layout), l2.wf →
      List.Pairwise (fun p q : Nat × Nat => p.1 < q.1) args2 →
      (∀ p ∈ args2, p.1 < l2.ndim ∧ p.2 < l2.shape.getD p.1 0) →
      args2.length = n → index_many l2 args2 = indexSingles args2 l2 := by
    intro n
    induction n with
    | zero =>
      intro args2 l2 hwf2 hasc2 hvalid2 hn
      cases args2 with
      | nil => simp only [indexSingles, index_many]
      | cons p t => simp at hn
    | succ n ih =>
      intro args2 l2 hwf2 hasc2 hvalid2 hn
      cases args2 with
      | nil => simp at hn
      | cons hd tl =>
        obtain ⟨a, idx⟩ := hd
        obtain ⟨ha, hidx⟩ := hvalid2 (a, idx) (List.mem_cons_self _ _)
        obtain ⟨hall, htl⟩ := List.pairwise_cons.mp hasc2
        rw [index_many_peel l2 a idx tl hwf2 hasc2 hvalid2]
        have hunfold : indexSingles ((a, idx) :: tl) l2 =
            (index l2 a idx).bind fun lnext =>
              indexSingles (tl.map fun p => (p.1 - 1, p.2)) lnext := by
          simp only [indexSingles]
        rw [hunfold, index_closed l2 a idx hwf2 ha hidx, RustOutcome.bind_returns,
          RustOutcome.bind_returns]
        have hshape1 : (Layout.ofAxes (l2.offset + (idx : Int) * l2.strides.getD a 0)
            (l2.axes.eraseIdx a)).shape = l2.shape.eraseIdx a := by
          rw [Layout.ofAxes_shape, map_eraseIdx]
          simp only [Layout.axes]
          rw [List.map_fst_zip _ _ (le_of_eq hwf2)]
        have hndim1 : (Layout.ofAxes (l2.offset + (idx : Int) * l2.strides.getD a 0)
            (l2.axes.eraseIdx a)).ndim = l2.ndim - 1 := by
          have h1 : a < l2.shape.length := ha
          simp only [Layout.ndim] at *
          rw [hshape1, List.length_eraseIdx, if_pos h1]
        apply ih
        · exact Layout.ofAxes_wf _ _
        · rw [List.pairwise_map]
          refine htl.imp_of_mem ?_
          intro p q hp hq hlt
          have := hall p hp
          omega
        · intro p2 hp2
          obtain ⟨p, hp, hpe⟩ := List.mem_map.mp hp2
          subst hpe
          obtain ⟨hpa, hpi⟩ := hvalid2 p (List.mem_cons_of_mem _ hp)
          have hpgt := hall p hp
          constructor
          · rw [hndim1]
            omega
          · rw [hshape1, getD_eraseIdx_shift l2.shape a p.1 hpgt]
            exact hpi
        · rw [List.length_map]
          simp only [List.length_cons] at hn
          omega
  exact key args.length args l hwf hasc hvalid rfl

/-- Consuming the head slice argument when the counter reaches its axis. -/
theorem sliceGo_consume (n : Nat) (arg : SliceArg) (tail : List SliceArg)
    (dA : Nat) (sA : Int) (back : List (Nat × Int))
    (hchk : ∀ next rest, tail = next :: rest →
      (decide (arg.axis < next.axis) && decide (next.axis < n)) = true) :
    sliceGo n (arg :: tail) arg.axis ((dA, sA) :: back) =
      (sliceAxis dA sA arg).bind fun body =>
        (sliceGo n tail (arg.axis + 1) back).map fun r =>
          (body.1 + r.1, (body.2.1, body.2.2) :: r.2) := by
  cases tail with
  | nil => simp only [sliceGo, if_pos rfl, if_true]
  | cons next rest =>
    have h := hchk next rest rfl
    simp only [sliceGo, if_pos rfl, h, if_true]

/-- Peeling the first argument off `slice_many`: on strictly ascending
in-range axes it equals the single-axis slice followed by `slice_many` on the
remaining arguments. -/
theorem slice_many_peel (l : Layout) (arg : SliceArg) (tail : List SliceArg)
    (hwf : l.wf)
    (hasc : List.Pairwise (fun x y : SliceArg => x.axis < y.axis) (arg :: tail))
    (hax : ∀ x ∈ arg :: tail, x.axis < l.ndim) :
    slice_many l (arg :: tail) =
      (slice l arg.axis arg.start arg.step arg.len).bind fun l2 =>
        slice_many l2 tail := by
  obtain ⟨hall, htail⟩ := List.pairwise_cons.mp hasc
  have ha : arg.axis < l.ndim := hax arg (List.mem_cons_self _ _)
  have ha1 : arg.axis < l.shape.length := ha
  have hlen : arg.axis < l.axes.length := by rw [Layout.axes_length l hwf]; exact ha
  have hgetD : l.axes.getD arg.axis (0, 0) =
      (l.shape.getD arg.axis 0, l.strides.getD arg.axis 0) := by
    simp only [Layout.axes]
    exact zip_getD l.shape l.strides arg.axis ha1 (hwf ▸ ha)
  have hfl : (l.axes.take arg.axis).length = arg.axis := by
    rw [List.length_take]
    omega
  have hdecomp := axes_decomp l arg.axis hlen
  have hchk : ∀ next rest, tail = next :: rest →
      (decide (arg.axis < next.axis) && decide (next.axis < l.ndim)) = true := by
    intro next rest heq
    subst heq
    have h1 := hall next (by simp)
    have h2 := hax next (by simp)
    simp only [Bool.and_eq_true, decide_eq_true_eq]
    exact ⟨h1, h2⟩
  have hL : slice_many l (arg :: tail) =
      ((sliceAxis (l.shape.getD arg.axis 0) (l.strides.getD arg.axis 0) arg).bind
        fun body =>
          (sliceGo l.ndim tail (arg.axis + 1) (l.axes.drop (arg.axis + 1))).map fun r =>
            (body.1 + r.1, (body.2.1, body.2.2) :: r.2)).map fun r =>
        Layout.ofAxes (l.offset + r.1) (l.axes.take arg.axis ++ r.2) := by
    simp only [slice_many]
    conv_lhs => rw [hdecomp, hgetD]
    rw [sliceGo_keepFront l.ndim (l.axes.take arg.axis) (arg :: tail)
        ((l.shape.getD arg.axis 0, l.strides.getD arg.axis 0) ::
          l.axes.drop (arg.axis + 1)) 0
        (by intro arg2 tail2 heq; cases heq; omega)]
    rw [Nat.zero_add, hfl,
      sliceGo_consume l.ndim arg tail (l.shape.getD arg.axis 0)
        (l.strides.getD arg.axis 0) (l.axes.drop (arg.axis + 1)) hchk,
      RustOutcome.map_map]
  rw [hL, slice_eq_sliceAxis l arg hwf ha]
  cases hres : sliceAxis (l.shape.getD arg.axis 0) (l.strides.getD arg.axis 0) arg with
  | panics => rfl
  | returns body =>
    simp only [RustOutcome.map, RustOutcome.bind]
    -- the layout after the single slice
    have hndim2 : (Layout.mk (l.offset + body.1) (l.shape.set arg.axis body.2.1)
        (l.strides.set arg.axis body.2.2)).ndim = l.ndim := by
      simp [Layout.ndim, List.length_set]
    have hsm := set_middle (l.axes.take arg.axis) (l.axes.drop (arg.axis + 1))
        (l.axes.getD arg.axis (0, 0)) (body.2.1, body.2.2)
    rw [hfl] at hsm
    have hdecompz := hdecomp
    simp only [Layout.axes] at hdecompz hsm
    have haxes2 : (Layout.mk (l.offset + body.1) (l.shape.set arg.axis body.2.1)
        (l.strides.set arg.axis body.2.2)).axes =
        (l.axes.take arg.axis ++ [(body.2.1, body.2.2)]) ++
          l.axes.drop (arg.axis + 1) := by
      simp only [Layout.axes]
      rw [zip_set]
      conv_lhs => rw [hdecompz]
      rw [hsm, List.append_cons]
    simp only [slice_many, hndim2, haxes2]
    rw [sliceGo_keepFront l.ndim (l.axes.take arg.axis ++ [(body.2.1, body.2.2)]) tail
        (l.axes.drop (arg.axis + 1)) 0
        (by
          intro arg2 tail2 heq
          subst heq
          have := hall arg2 (by simp)
          simp only [List.length_append, List.length_cons, List.length_nil, hfl]
          omega)]
    have hl2 : (l.axes.take arg.axis ++ [(body.2.1, body.2.2)] :
        List (Nat × Int)).length = arg.axis + 1 := by
      simp only [List.length_append, List.length_cons, List.length_nil, hfl]
    rw [Nat.zero_add, hl2, RustOutcome.map_map]
    cases sliceGo l.ndim tail (arg.axis + 1) (l.axes.drop (arg.axis + 1)) with
    | panics => rfl
    | returns r =>
      simp only [RustOutcome.map]
      rw [add_assoc, List.append_cons]

/-- `slice_many` on strictly ascending in-range axes equals the repeated
single-axis slice. -/
theorem slice_many_eq_singles : ∀ (args : List SliceArg) (l : Layout), l.wf →
    List.Pairwise (fun x y : SliceArg => x.axis < y.axis) args →
    (∀ x ∈ args, x.axis < l.ndim) →
    slice_many l args = sliceSingles args l := by
  intro args
  induction args with
  | nil =>
    intro l hwf hasc hax
    simp only [slice_many, sliceGo_nil, RustOutcome.map, sliceSingles]
    rw [add_zero, Layout.ofAxes_axes_self l hwf]
  | cons arg tl ih =>
    intro l hwf hasc hax
    obtain ⟨hall, htl⟩ := List.pairwise_cons.mp hasc
    rw [slice_many_peel l arg tl hwf hasc hax]
    simp only [sliceSingles]
    rw [slice_eq_sliceAxis l arg hwf (hax arg (List.mem_cons_self _ _))]
    cases hres : sliceAxis (l.shape.getD arg.axis 0) (l.strides.getD arg.axis 0) arg with
    | panics => rfl
    | returns body =>
      simp only [RustOutcome.map, RustOutcome.bind]
      apply ih
      · simp only [Layout.wf, List.length_set]
        exact hwf
      · exact htl
      · intro x hx
        have := hax x (List.mem_cons_of_mem _ hx)
        simpa [Layout.ndim, List.length_set] using this

/-- C9.  Each many-axis variant produces the same layout as applying the
corresponding single-axis operation repeatedly in ascending-axis order: for
`index_many`, single-axis indexing removes an axis, so the later arguments
are renumbered down by one at each step (`indexSingles`); for `slice_many`,
the rank is preserved and the single-axis slices compose directly
(`sliceSingles`). -/
theorem c9_many_equals_repeated_single :
    (∀ (l : Layout) (args : List (Nat × Nat)), l.wf →
        List.Pairwise (fun p q : Nat × Nat => p.1 < q.1) args →
        (∀ p ∈ args, p.1 < l.ndim ∧ p.2 < l.shape.getD p.1 0) →
        index_many l args = indexSingles args l) ∧
    (∀ (l : Layout) (args : List SliceArg), l.wf →
        List.Pairwise (fun x y : SliceArg => x.axis < y.axis) args →
        (∀ x ∈ args, x.axis < l.ndim) →
        slice_many l args = sliceSingles args l) :=
  ⟨fun l args hwf hasc hvalid => index_many_eq_singles args l hwf hasc hvalid,
   fun l args hwf hasc hax => slice_many_eq_singles args l hwf hasc hax⟩

/-- C9, witness: a two-argument index call and a two-argument slice call on
`new([2,3,4],[12,4,1],0)` agree with their repeated single-axis forms. -/
theorem c9_many_equals_repeated_single_witness :
    index_many ⟨0, [2, 3, 4], [12, 4, 1]⟩ [(0, 1), (2, 3)] =
      indexSingles [(0, 1), (2, 3)] ⟨0, [2, 3, 4], [12, 4, 1]⟩ ∧
    slice_many ⟨0, [2, 3, 4], [12, 4, 1]⟩ [⟨0, 1, 1, 1⟩, ⟨2, 1, 2, 9⟩] =
      sliceSingles [⟨0, 1, 1, 1⟩, ⟨2, 1, 2, 9⟩] ⟨0, [2, 3, 4], [12, 4, 1]⟩ :=
  ⟨c9_many_equals_repeated_single.1 ⟨0, [2, 3, 4], [12, 4, 1]⟩ [(0, 1), (2, 3)]
      (by decide) (by decide) (by decide),
   c9_many_equals_repeated_single.2 ⟨0, [2, 3, 4], [12, 4, 1]⟩
      [⟨0, 1, 1, 1⟩, ⟨2, 1, 2, 9⟩] (by decide) (by decide) (by decide)⟩

end NdLayout
